import Mathlib

set_option maxRecDepth 4000

/-!
Verification of the Reed-Solomon encoder core of the qr-generator repository
(`src/reed_solomon.ts`), shallowly embedded in Lean.

JS numbers in the in-range regimes used by the encoder are nonnegative
integers, so machine values are modelled as `Nat` (for byte/list data) and
`Int` (for the parameters `version`, `numBlocks`, `blockEccLen` and the
derived quantities, which the source compares against ranges and subtracts).
JS `Math.floor(a / b)` and `a % b` on nonnegative operands coincide with
`Int` `/` (Euclidean) and `%`.  `throw "msg"` becomes `Except String`;
`Array.prototype.shift()` on an empty array yields `undefined`, which JS
bitwise-xor coerces to `0`, modelled by `List.headD _ 0`.
-/

namespace ReedSolomon

/-- One iteration of the Russian-peasant loop in `reedSolomonMultiply`
(source lines 84-87): `z = (z << 1) ^ ((z >>> 7) * 0x11D); z ^= ((y >>> i) & 1) * x`. -/
def rsMultStep (x y i z : Nat) : Nat :=
  ((z <<< 1) ^^^ ((z >>> 7) * 0x11D)) ^^^ (((y >>> i) &&& 1) * x)

/-- The loop `for (let i = 7; i >= 0; i--)` of `reedSolomonMultiply`:
`rsMultLoop x y n z` runs the remaining `n` iterations, the next one using
bit index `n - 1`.  Started with `n = 8`, it visits `i = 7, 6, ..., 0`. -/
def rsMultLoop (x y : Nat) : Nat → Nat → Nat
  | 0, z => z
  | n + 1, z => rsMultLoop x y n (rsMultStep x y n z)

/-- The accumulator value produced by the loop of `reedSolomonMultiply`. -/
def rsMultCore (x y : Nat) : Nat := rsMultLoop x y 8 0

/-- Embedding of `reedSolomonMultiply` (source lines 79-91): guard `x >>> 8 != 0 || y >>> 8 != 0`
throws "Byte out of range"; after the loop, `z >>> 8 != 0` throws "Assertion error". -/
def reedSolomonMultiply (x y : Nat) : Except String Nat :=
  if x >>> 8 ≠ 0 ∨ y >>> 8 ≠ 0 then .error "Byte out of range"
  else if rsMultCore x y >>> 8 ≠ 0 then .error "Assertion error"
  else .ok (rsMultCore x y)

/-- The inner loop of `reedSolomonComputeDivisor` (source lines 53-57):
for ascending `j`, `result[j] = multiply(result[j], root)` and, when
`j + 1 < result.length`, `result[j] ^= result[j + 1]` (the neighbour
`result[j+1]` is read before it is itself updated). -/
def divStep (root : Nat) : List Nat → Except String (List Nat)
  | [] => .ok []
  | [a] => (reedSolomonMultiply a root).map (fun m => [m])
  | a :: b :: rest => do
      let m ← reedSolomonMultiply a root
      let r ← divStep root (b :: rest)
      pure ((m ^^^ b) :: r)

/-- The outer loop of `reedSolomonComputeDivisor` (source lines 51-59):
`n` remaining iterations; each runs `divStep` on the coefficient array and
then updates `root = multiply(root, 0x02)`. -/
def divIter : Nat → Nat → List Nat → Except String (List Nat)
  | 0, _, result => .ok result
  | n + 1, root, result => do
      let r ← divStep root result
      let root2 ← reedSolomonMultiply root 2
      divIter n root2 r

/-- Embedding of `reedSolomonComputeDivisor` (source lines 37-61): degree guard, then the
coefficient array starts as `degree - 1` zeros followed by `1` and the outer
loop runs `degree` times with `root` starting at `1`. -/
def reedSolomonComputeDivisor (degree : Int) : Except String (List Nat) :=
  if degree < 1 ∨ degree > 255 then .error "Degree out of range"
  else divIter degree.toNat 1 (List.replicate (degree.toNat - 1) 0 ++ [1])

/-- The `divisor.forEach((coef, i) => result[i] ^= multiply(coef, factor))` of
`reedSolomonComputeRemainder` (source lines 70-71): the first argument is the
remaining divisor coefficients, the second the remaining result entries.
Writing one slot past the end of the array (possible in JS when the result is
shorter than the divisor) appends `undefined ^ v = v`. -/
def xorInto (factor : Nat) : List Nat → List Nat → Except String (List Nat)
  | [], rest => .ok rest
  | c :: cs, r :: rs => do
      let m ← reedSolomonMultiply c factor
      let t ← xorInto factor cs rs
      pure ((r ^^^ m) :: t)
  | c :: cs, [] => do
      let m ← reedSolomonMultiply c factor
      let t ← xorInto factor cs []
      pure (m :: t)

/-- The `for (const b of data)` loop of `reedSolomonComputeRemainder`
(source lines 67-72): `factor = b ^ result.shift()` (an empty shift gives
`undefined`, coerced to `0` by `^`), `result.push(0)`, then `xorInto`. -/
def remFold (divisor : List Nat) : List Nat → List Nat → Except String (List Nat)
  | result, [] => .ok result
  | result, b :: bs => do
      let factor := b ^^^ result.headD 0
      let shifted := result.tail ++ [0]
      let r ← xorInto factor divisor shifted
      remFold divisor r bs

/-- Embedding of `reedSolomonComputeRemainder` (source lines 65-74): the result buffer
starts as `divisor.map(_ => 0)`. -/
def reedSolomonComputeRemainder (data divisor : List Nat) : Except String (List Nat) :=
  remFold divisor (divisor.map (fun _ => 0)) data

/-- Embedding of `getNumRawDataModules` (source lines 8-21). -/
def getNumRawDataModules (ver : Int) : Except String Int :=
  if ver < 1 ∨ ver > 40 then .error "Version number out of range"
  else
    let base := (16 * ver + 128) * ver + 64
    let result :=
      if 2 ≤ ver then
        let numAlign := ver / 7 + 2
        let r := base - ((25 * numAlign - 10) * numAlign - 55)
        if 7 ≤ ver then r - 36 else r
      else base
    if ¬(208 ≤ result ∧ result ≤ 29648) then .error "Assertion error"
    else .ok result

/-- Embedding of `getNumDataCodewords` (source lines 27-32), with the two capacity-table
entries `ECC_CODEWORDS_PER_BLOCK[ecl][ver]` and
`NUM_ERROR_CORRECTION_BLOCKS[ecl][ver]` supplied as the parameters
`blockEccLen` and `numBlocks` (the tables live outside this file's source
and are plain constants read by the function). -/
def getNumDataCodewords (ver numBlocks blockEccLen : Int) : Except String Int :=
  (getNumRawDataModules ver).map (fun raw => raw / 8 - blockEccLen * numBlocks)

/-- The block-building loop of `addEccAndInterleave` (source lines 108-115):
`n` remaining blocks, current block index `i`, and `rest` the not yet
consumed suffix of `data` (the source advances a cursor `k` by the length of
each slice; `data.slice(k, k + len)` is `(data.drop k).take len`, with JS
clamping of a non-positive length modelled by `Int.toNat`).  Each block is
`dat ++ [0]` (short blocks only) followed by its ECC. -/
def buildBlocks (rsDiv : List Nat) (numShortBlocks baseLen : Int) :
    Nat → Int → List Nat → Except String (List (List Nat))
  | 0, _, _ => .ok []
  | n + 1, i, rest => do
      let dat := rest.take (baseLen + if i < numShortBlocks then 0 else 1).toNat
      let ecc ← reedSolomonComputeRemainder dat rsDiv
      let blk := (if i < numShortBlocks then dat ++ [0] else dat) ++ ecc
      let blocks ← buildBlocks rsDiv numShortBlocks baseLen n (i + 1) (rest.drop dat.length)
      pure (blk :: blocks)

/-- The inner `blocks.forEach((block, j) => ...)` of the interleaving loop
(source lines 120-124): at row `i`, block index `j`, the byte `block[i]` is
emitted unless `i == shortBlockLen - blockEccLen && j < numShortBlocks`. -/
def interleaveRow (padPos numShortBlocks : Int) (i : Nat) : Int → List (List Nat) → List Nat
  | _, [] => []
  | j, blk :: rest =>
      if (i : Int) ≠ padPos ∨ numShortBlocks ≤ j
      then blk.getD i 0 :: interleaveRow padPos numShortBlocks i (j + 1) rest
      else interleaveRow padPos numShortBlocks i (j + 1) rest

/-- The outer interleaving loop (source lines 118-125): rows
`i = 0 .. blocks[0].length - 1`. -/
def interleaveAll (padPos numShortBlocks : Int) (blocks : List (List Nat)) : List Nat :=
  (List.range (blocks.headD []).length).flatMap
    (fun i => interleaveRow padPos numShortBlocks i 0 blocks)

/-- Embedding of `addEccAndInterleave` (source lines 92-129), with the two capacity-table
entries for the requested error-correction level and version passed as
`numBlocks` and `blockEccLen` (as in `getNumDataCodewords`). -/
def addEccAndInterleave (data : List Nat) (ver numBlocks blockEccLen : Int) :
    Except String (List Nat) := do
  let expected ← getNumDataCodewords ver numBlocks blockEccLen
  if (data.length : Int) ≠ expected then .error "Invalid argument"
  else do
    let raw ← getNumRawDataModules ver
    let rawCodewords := raw / 8
    let numShortBlocks := numBlocks - rawCodewords % numBlocks
    let shortBlockLen := rawCodewords / numBlocks
    let rsDiv ← reedSolomonComputeDivisor blockEccLen
    let blocks ← buildBlocks rsDiv numShortBlocks (shortBlockLen - blockEccLen)
      numBlocks.toNat 0 data
    let result := interleaveAll (shortBlockLen - blockEccLen) numShortBlocks blocks
    if (result.length : Int) ≠ rawCodewords then .error "Assertion error"
    else .ok result

/-- The closed-form raw-module count stated by the specification: the base
`(16*ver + 128)*ver + 64`, minus `(25*numAlign - 10)*numAlign - 55` with
`numAlign = floor(ver/7) + 2` when `ver >= 2`, minus a further `36` when
`ver >= 7`. -/
def numRawDataModulesF (ver : Int) : Int :=
  (16 * ver + 128) * ver + 64
    - (if 2 ≤ ver then (25 * (ver / 7 + 2) - 10) * (ver / 7 + 2) - 55 else 0)
    - (if 7 ≤ ver then 36 else 0)

/-- The data slices that the block loop of `addEccAndInterleave` cuts from
`data`, paired with whether the block is short (gets the pad byte). -/
def theSlices (numShortBlocks baseLen : Int) : Nat → Int → List Nat → List (List Nat × Bool)
  | 0, _, _ => []
  | n + 1, i, rest =>
      let dat := rest.take (baseLen + if i < numShortBlocks then 0 else 1).toNat
      (dat, decide (i < numShortBlocks)) ::
        theSlices numShortBlocks baseLen n (i + 1) (rest.drop dat.length)

/-- One block built from its own data slice alone: its ECC from
`reedSolomonComputeRemainder` with the single divisor, the pad byte when
short. -/
def mkBlock (rsDiv : List Nat) (p : List Nat × Bool) : Except String (List Nat) := do
  let ecc ← reedSolomonComputeRemainder p.1 rsDiv
  pure ((if p.2 then p.1 ++ [0] else p.1) ++ ecc)

/-- The number of data bytes the block loop consumes over its remaining `n`
iterations starting at block index `i`. -/
def neededData (numShortBlocks baseLen : Int) : Nat → Int → Nat
  | 0, _ => 0
  | n + 1, i =>
      (baseLen + if i < numShortBlocks then 0 else 1).toNat +
        neededData numShortBlocks baseLen n (i + 1)

/-- The double-and-reduce part of one loop step of `reedSolomonMultiply`:
`(z << 1) ^ ((z >>> 7) * 0x11D)`. -/
def dbl (z : Nat) : Nat := (z <<< 1) ^^^ ((z >>> 7) * 0x11D)

/-! ### GF(256) multiply: byte bounds and field laws -/

theorem rsMultStep_eq_dbl (x y i z : Nat) :
    rsMultStep x y i z = dbl z ^^^ ((y >>> i) &&& 1) * x := rfl

theorem xor_lt_256 {a b : Nat} (ha : a < 256) (hb : b < 256) : a ^^^ b < 256 := by
  have h : (256 : Nat) = 2 ^ 8 := by norm_num
  rw [h] at ha hb ⊢
  exact Nat.xor_lt_two_pow ha hb

theorem dbl_lt : ∀ z < 256, dbl z < 256 := by decide

theorem bit_le_one (w : Nat) : w &&& 1 ≤ 1 := Nat.and_le_right

theorem rsMultStep_lt {x z : Nat} (y i : Nat) (hx : x < 256) (hz : z < 256) :
    rsMultStep x y i z < 256 := by
  rw [rsMultStep_eq_dbl]
  refine xor_lt_256 (dbl_lt z hz) ?_
  calc ((y >>> i) &&& 1) * x ≤ 1 * x := Nat.mul_le_mul_right x (bit_le_one _)
    _ < 256 := by omega

theorem rsMultLoop_lt {x : Nat} (y : Nat) (hx : x < 256) :
    ∀ (n : Nat) {z : Nat}, z < 256 → rsMultLoop x y n z < 256 := by
  intro n
  induction n with
  | zero => intro z hz; exact hz
  | succ n ih => intro z hz; exact ih (rsMultStep_lt y n hx hz)

theorem rsMultCore_lt {x : Nat} (y : Nat) (hx : x < 256) : rsMultCore x y < 256 :=
  rsMultLoop_lt y hx 8 (by omega)

theorem shiftRight_xor (a b i : Nat) : (a ^^^ b) >>> i = (a >>> i) ^^^ (b >>> i) := by
  apply Nat.eq_of_testBit_eq
  intro k
  simp [Nat.testBit_shiftRight, Nat.testBit_xor]

theorem shiftLeft_xor (a b i : Nat) : (a ^^^ b) <<< i = (a <<< i) ^^^ (b <<< i) := by
  apply Nat.eq_of_testBit_eq
  intro k
  simp only [Nat.testBit_shiftLeft, Nat.testBit_xor]
  cases Decidable.decide (k ≥ i) <;> simp

theorem bit_mul_xor {a b : Nat} (ha : a ≤ 1) (hb : b ≤ 1) (x : Nat) :
    (a ^^^ b) * x = (a * x) ^^^ (b * x) := by
  interval_cases a <;> interval_cases b <;> simp [Nat.xor_self]

theorem mul_bit_xor {b : Nat} (hb : b ≤ 1) (x1 x2 : Nat) :
    b * (x1 ^^^ x2) = (b * x1) ^^^ (b * x2) := by
  interval_cases b <;> simp

theorem xor_xor_swap (a b c d : Nat) :
    (a ^^^ b) ^^^ (c ^^^ d) = (a ^^^ c) ^^^ (b ^^^ d) := by
  rw [Nat.xor_assoc, Nat.xor_assoc]
  congr 1
  rw [← Nat.xor_assoc, ← Nat.xor_assoc]
  congr 1
  exact Nat.xor_comm _ _

theorem shiftRight7_le_one {z : Nat} (hz : z < 256) : z >>> 7 ≤ 1 := by
  rw [Nat.shiftRight_eq_div_pow]
  omega

theorem dbl_xor {z1 z2 : Nat} (h1 : z1 < 256) (h2 : z2 < 256) :
    dbl (z1 ^^^ z2) = dbl z1 ^^^ dbl z2 := by
  unfold dbl
  rw [shiftLeft_xor, shiftRight_xor,
    bit_mul_xor (shiftRight7_le_one h1) (shiftRight7_le_one h2)]
  exact xor_xor_swap _ _ _ _

/-- The loop is linear (over GF(2)) jointly in the multiplier `y` and the
accumulator `z`, for a fixed byte `x`. -/
theorem rsMultLoop_y_xor {x : Nat} (hx : x < 256) (y1 y2 : Nat) :
    ∀ (n : Nat) {z1 z2 : Nat}, z1 < 256 → z2 < 256 →
      rsMultLoop x (y1 ^^^ y2) n (z1 ^^^ z2) =
        rsMultLoop x y1 n z1 ^^^ rsMultLoop x y2 n z2 := by
  intro n
  induction n with
  | zero => intro z1 z2 _ _; rfl
  | succ n ih =>
      intro z1 z2 h1 h2
      show rsMultLoop x (y1 ^^^ y2) n (rsMultStep x (y1 ^^^ y2) n (z1 ^^^ z2)) = _
      have hstep : rsMultStep x (y1 ^^^ y2) n (z1 ^^^ z2) =
          rsMultStep x y1 n z1 ^^^ rsMultStep x y2 n z2 := by
        rw [rsMultStep_eq_dbl, rsMultStep_eq_dbl, rsMultStep_eq_dbl,
          dbl_xor h1 h2, shiftRight_xor, Nat.and_xor_distrib_right,
          bit_mul_xor (bit_le_one _) (bit_le_one _)]
        exact xor_xor_swap _ _ _ _
      rw [hstep]
      exact ih (rsMultStep_lt y1 n hx h1) (rsMultStep_lt y2 n hx h2)

theorem rsMultCore_y_xor {x : Nat} (hx : x < 256) (y1 y2 : Nat) :
    rsMultCore x (y1 ^^^ y2) = rsMultCore x y1 ^^^ rsMultCore x y2 := by
  have h := @rsMultLoop_y_xor x hx y1 y2 8 0 0 (by omega) (by omega)
  simpa [rsMultCore] using h

/-- The loop is also linear jointly in the multiplicand `x` and the
accumulator, for a fixed `y`. -/
theorem rsMultLoop_x_xor {x1 x2 : Nat} (hx1 : x1 < 256) (hx2 : x2 < 256) (y : Nat) :
    ∀ (n : Nat) {z1 z2 : Nat}, z1 < 256 → z2 < 256 →
      rsMultLoop (x1 ^^^ x2) y n (z1 ^^^ z2) =
        rsMultLoop x1 y n z1 ^^^ rsMultLoop x2 y n z2 := by
  intro n
  induction n with
  | zero => intro z1 z2 _ _; rfl
  | succ n ih =>
      intro z1 z2 h1 h2
      show rsMultLoop (x1 ^^^ x2) y n (rsMultStep (x1 ^^^ x2) y n (z1 ^^^ z2)) = _
      have hstep : rsMultStep (x1 ^^^ x2) y n (z1 ^^^ z2) =
          rsMultStep x1 y n z1 ^^^ rsMultStep x2 y n z2 := by
        rw [rsMultStep_eq_dbl, rsMultStep_eq_dbl, rsMultStep_eq_dbl,
          dbl_xor h1 h2, mul_bit_xor (bit_le_one _)]
        exact xor_xor_swap _ _ _ _
      rw [hstep]
      exact ih (rsMultStep_lt y n hx1 h1) (rsMultStep_lt y n hx2 h2)

theorem rsMultCore_x_xor {x1 x2 : Nat} (hx1 : x1 < 256) (hx2 : x2 < 256) (y : Nat) :
    rsMultCore (x1 ^^^ x2) y = rsMultCore x1 y ^^^ rsMultCore x2 y := by
  have h := @rsMultLoop_x_xor x1 x2 hx1 hx2 y 8 0 0 (by omega) (by omega)
  simpa [rsMultCore] using h

theorem rsMultCore_zero_left (y : Nat) : rsMultCore 0 y = 0 := by
  have h : ∀ n, rsMultLoop 0 y n 0 = 0 := by
    intro n
    induction n with
    | zero => rfl
    | succ n ih =>
        have hz : rsMultStep 0 y n 0 = 0 := by
          simp [rsMultStep]
        show rsMultLoop 0 y n (rsMultStep 0 y n 0) = 0
        rw [hz, ih]
  exact h 8

theorem rsMultCore_zero_right (x : Nat) : rsMultCore x 0 = 0 := by
  have h : ∀ n, rsMultLoop x 0 n 0 = 0 := by
    intro n
    induction n with
    | zero => rfl
    | succ n ih =>
        have hz : rsMultStep x 0 n 0 = 0 := by
          simp [rsMultStep]
        show rsMultLoop x 0 n (rsMultStep x 0 n 0) = 0
        rw [hz, ih]
  exact h 8

theorem rsMultCore_pow_pow : ∀ i < 8, ∀ j < 8,
    rsMultCore (2 ^ i) (2 ^ j) = rsMultCore (2 ^ j) (2 ^ i) := by decide

/-- Top-bit decomposition: a nonzero byte is the xor of its top power of two
and a smaller remainder. -/
theorem top_bit_split {y : Nat} (hy : y ≠ 0) (hy256 : y < 256) :
    y.log2 < 8 ∧ (y ^^^ 2 ^ y.log2) < 2 ^ y.log2 ∧
      y = 2 ^ y.log2 ^^^ (y ^^^ 2 ^ y.log2) := by
  have hl8 : y.log2 < 8 := (Nat.log2_lt hy).mpr (by omega)
  have hle : 2 ^ y.log2 ≤ y := Nat.log2_self_le hy
  have hlt : y < 2 ^ (y.log2 + 1) := Nat.lt_log2_self
  have hpos : 0 < 2 ^ y.log2 := Nat.two_pow_pos _
  have hdiv : y >>> y.log2 = 1 := by
    rw [Nat.shiftRight_eq_div_pow]
    refine Nat.div_eq_of_lt_le (by omega) ?_
    rw [Nat.pow_succ] at hlt
    omega
  have hself : (2 ^ y.log2) >>> y.log2 = 1 := by
    rw [Nat.shiftRight_eq_div_pow, Nat.div_self hpos]
  have hr : (y ^^^ 2 ^ y.log2) >>> y.log2 = 0 := by
    rw [shiftRight_xor, hdiv, hself, Nat.xor_self]
  have hrlt : (y ^^^ 2 ^ y.log2) < 2 ^ y.log2 := by
    rw [Nat.shiftRight_eq_div_pow] at hr
    by_contra hge
    have : 1 ≤ (y ^^^ 2 ^ y.log2) / 2 ^ y.log2 :=
      (Nat.one_le_div_iff hpos).mpr (by omega)
    omega
  refine ⟨hl8, hrlt, ?_⟩
  rw [Nat.xor_comm y (2 ^ y.log2), ← Nat.xor_assoc, Nat.xor_self, Nat.zero_xor]

theorem rsMultCore_pow_comm : ∀ j < 8, ∀ y < 256,
    rsMultCore (2 ^ j) y = rsMultCore y (2 ^ j) := by
  intro j hj y
  induction y using Nat.strong_induction_on with
  | _ y ih =>
      intro hy256
      by_cases hy : y = 0
      · subst hy
        rw [rsMultCore_zero_right, rsMultCore_zero_left]
      · obtain ⟨hl8, hrlt, hsplit⟩ := top_bit_split hy hy256
        have hpl : (2 : Nat) ^ y.log2 < 256 := by
          calc (2:Nat) ^ y.log2 ≤ y := Nat.log2_self_le hy
            _ < 256 := hy256
        have hr256 : (y ^^^ 2 ^ y.log2) < 256 := by
          calc (y ^^^ 2 ^ y.log2) < 2 ^ y.log2 := hrlt
            _ < 256 := hpl
        have hrsmall : (y ^^^ 2 ^ y.log2) < y := by
          calc (y ^^^ 2 ^ y.log2) < 2 ^ y.log2 := hrlt
            _ ≤ y := Nat.log2_self_le hy
        have hj256 : (2 : Nat) ^ j < 256 := by
          have : (2:Nat) ^ j ≤ 2 ^ 7 := Nat.pow_le_pow_right (by omega) (by omega)
          omega
        conv_lhs => rw [hsplit]
        conv_rhs => rw [hsplit]
        rw [rsMultCore_y_xor hj256, rsMultCore_x_xor hpl hr256,
          rsMultCore_pow_pow _ hl8 _ hj, ih _ hrsmall hr256]

theorem rsMultCore_comm : ∀ x < 256, ∀ y < 256, rsMultCore x y = rsMultCore y x := by
  intro x
  induction x using Nat.strong_induction_on with
  | _ x ih =>
      intro hx256 y hy256
      by_cases hx : x = 0
      · subst hx
        rw [rsMultCore_zero_left, rsMultCore_zero_right]
      · obtain ⟨hl8, hrlt, hsplit⟩ := top_bit_split hx hx256
        have hpl : (2 : Nat) ^ x.log2 < 256 := by
          calc (2:Nat) ^ x.log2 ≤ x := Nat.log2_self_le hx
            _ < 256 := hx256
        have hr256 : (x ^^^ 2 ^ x.log2) < 256 := by
          calc (x ^^^ 2 ^ x.log2) < 2 ^ x.log2 := hrlt
            _ < 256 := hpl
        have hrsmall : (x ^^^ 2 ^ x.log2) < x := by
          calc (x ^^^ 2 ^ x.log2) < 2 ^ x.log2 := hrlt
            _ ≤ x := Nat.log2_self_le hx
        conv_lhs => rw [hsplit]
        conv_rhs => rw [hsplit]
        rw [rsMultCore_x_xor hpl hr256, rsMultCore_y_xor hy256,
          rsMultCore_pow_comm _ hl8 y hy256, ih _ hrsmall hr256 y hy256]

theorem rsMultCore_one_right : ∀ x < 256, rsMultCore x 1 = x := by decide

/-- On byte inputs, `reedSolomonMultiply` never throws and returns the loop
accumulator: the argument guard passes and the final assertion is
unreachable. -/
theorem reedSolomonMultiply_ok {x y : Nat} (hx : x < 256) (hy : y < 256) :
    reedSolomonMultiply x y = .ok (rsMultCore x y) := by
  unfold reedSolomonMultiply
  have hx8 : x >>> 8 = 0 := by rw [Nat.shiftRight_eq_div_pow]; omega
  have hy8 : y >>> 8 = 0 := by rw [Nat.shiftRight_eq_div_pow]; omega
  have hz : rsMultCore x y >>> 8 = 0 := by
    rw [Nat.shiftRight_eq_div_pow]
    have := rsMultCore_lt y hx
    omega
  rw [if_neg (by simp [hx8, hy8]), if_neg (by simp [hz])]

end ReedSolomon

namespace ReedSolomon

/-! ### Except plumbing -/

theorem ok_bind {α β : Type} (a : α) (f : α → Except String β) :
    (Except.ok a >>= f : Except String β) = f a := rfl

theorem pure_eq_ok {α : Type} (a : α) : (pure a : Except String α) = Except.ok a := rfl

theorem ok_map {α β : Type} (a : α) (f : α → β) :
    (Except.ok a : Except String α).map f = Except.ok (f a) := rfl

/-! ### Divisor polynomial: success, length and byte bounds -/

theorem divStep_ok {root : Nat} (hroot : root < 256) :
    ∀ (result : List Nat), (∀ c ∈ result, c < 256) →
      ∃ out, divStep root result = .ok out ∧ out.length = result.length ∧
        ∀ c ∈ out, c < 256 := by
  intro result
  induction result with
  | nil => exact fun _ => ⟨[], rfl, rfl, by simp⟩
  | cons a tl ih =>
      intro hb
      have ha : a < 256 := hb a (by simp)
      cases tl with
      | nil =>
          refine ⟨[rsMultCore a root], ?_, rfl, ?_⟩
          · show (reedSolomonMultiply a root).map (fun m => [m]) = _
            rw [reedSolomonMultiply_ok ha hroot, ok_map]
          · intro c hc
            simp only [List.mem_singleton] at hc
            subst hc
            exact rsMultCore_lt root ha
      | cons b tl2 =>
          obtain ⟨out, hout, hlen, hbytes⟩ := ih (fun c hc => hb c (by simp [hc]))
          refine ⟨(rsMultCore a root ^^^ b) :: out, ?_, by simp [hlen], ?_⟩
          · simp only [divStep, reedSolomonMultiply_ok ha hroot, ok_bind, hout, pure_eq_ok]
          · intro c hc
            rcases List.mem_cons.mp hc with h | h
            · subst h
              exact xor_lt_256 (rsMultCore_lt root ha) (hb b (by simp))
            · exact hbytes c h

theorem divIter_ok : ∀ (n : Nat) {root : Nat}, root < 256 → ∀ (result : List Nat),
    (∀ c ∈ result, c < 256) →
    ∃ out, divIter n root result = .ok out ∧ out.length = result.length ∧
      ∀ c ∈ out, c < 256 := by
  intro n
  induction n with
  | zero => exact fun _ result h => ⟨result, rfl, rfl, h⟩
  | succ n ih =>
      intro root hroot result hres
      obtain ⟨r1, h1, hl1, hb1⟩ := divStep_ok hroot result hres
      obtain ⟨out, hout, hlo, hbo⟩ := ih (rsMultCore_lt 2 hroot) r1 hb1
      refine ⟨out, ?_, by rw [hlo, hl1], hbo⟩
      have hm : reedSolomonMultiply root 2 = .ok (rsMultCore root 2) :=
        reedSolomonMultiply_ok hroot (by omega)
      simp only [divIter, h1, ok_bind, hm, hout]

theorem computeDivisor_ok {d : Int} (h1 : 1 ≤ d) (h2 : d ≤ 255) :
    ∃ res, reedSolomonComputeDivisor d = .ok res ∧ (res.length : Int) = d ∧
      ∀ c ∈ res, c < 256 := by
  have hinit : ∀ c ∈ List.replicate (d.toNat - 1) 0 ++ [1], c < 256 := by
    intro c hc
    rcases List.mem_append.mp hc with h | h
    · have := List.eq_of_mem_replicate h; omega
    · simp only [List.mem_singleton] at h; omega
  obtain ⟨res, hres, hlen, hbytes⟩ := divIter_ok d.toNat (by omega : (1:Nat) < 256) _ hinit
  refine ⟨res, ?_, ?_, hbytes⟩
  · unfold reedSolomonComputeDivisor
    rw [if_neg (by omega)]
    exact hres
  · rw [hlen]
    simp only [List.length_append, List.length_replicate, List.length_singleton]
    omega

/-! ### Remainder: success, length and byte bounds -/

theorem xorInto_ok {factor : Nat} (hf : factor < 256) :
    ∀ (ds rs : List Nat), (∀ c ∈ ds, c < 256) → (∀ r ∈ rs, r < 256) →
      ds.length ≤ rs.length →
      ∃ out, xorInto factor ds rs = .ok out ∧ out.length = rs.length ∧
        ∀ r ∈ out, r < 256 := by
  intro ds
  induction ds with
  | nil => exact fun rs _ hrs _ => ⟨rs, rfl, rfl, hrs⟩
  | cons c cs ih =>
      intro rs hds hrs hlen
      cases rs with
      | nil => simp at hlen
      | cons r rs2 =>
          have hc : c < 256 := hds c (by simp)
          have hr : r < 256 := hrs r (by simp)
          obtain ⟨out, hout, hl, hbs⟩ := ih rs2 (fun a ha => hds a (by simp [ha]))
            (fun a ha => hrs a (by simp [ha])) (by simpa using hlen)
          refine ⟨(r ^^^ rsMultCore c factor) :: out, ?_, by simp [hl], ?_⟩
          · simp only [xorInto, reedSolomonMultiply_ok hc hf, ok_bind, hout, pure_eq_ok]
          · intro a ha
            rcases List.mem_cons.mp ha with h | h
            · subst h
              exact xor_lt_256 hr (rsMultCore_lt factor hc)
            · exact hbs a h

theorem remFold_ok {divisor : List Nat} (hdiv : ∀ c ∈ divisor, c < 256) (hne : divisor ≠ []) :
    ∀ (data : List Nat), (∀ b ∈ data, b < 256) → ∀ (result : List Nat),
      (∀ r ∈ result, r < 256) → result.length = divisor.length →
      ∃ out, remFold divisor result data = .ok out ∧ out.length = divisor.length ∧
        ∀ r ∈ out, r < 256 := by
  intro data
  induction data with
  | nil => exact fun _ result hr hl => ⟨result, rfl, hl, hr⟩
  | cons b bs ih =>
      intro hdata result hres hlen
      have hb : b < 256 := hdata b (by simp)
      have hdlen : divisor.length ≠ 0 := by
        intro h
        exact hne (List.length_eq_zero.mp h)
      cases result with
      | nil => simp at hlen; omega
      | cons r0 rtl =>
          have hfac : (b ^^^ (r0 :: rtl).headD 0) < 256 := by
            simp only [List.headD_cons]
            exact xor_lt_256 hb (hres r0 (by simp))
          have hshift_bytes : ∀ a ∈ (r0 :: rtl).tail ++ [0], a < 256 := by
            intro a ha
            rcases List.mem_append.mp ha with h | h
            · exact hres a (List.mem_cons_of_mem r0 (by simpa using h))
            · simp only [List.mem_singleton] at h; omega
          have hshift_len : ((r0 :: rtl).tail ++ [0]).length = divisor.length := by
            simp only [List.tail_cons, List.length_append, List.length_singleton]
            simp only [List.length_cons] at hlen
            omega
          obtain ⟨mid, hmid, hml, hmb⟩ := xorInto_ok hfac divisor _ hdiv hshift_bytes
            (le_of_eq hshift_len.symm)
          obtain ⟨out, hout, hol, hob⟩ := ih (fun a ha => hdata a (by simp [ha])) mid hmb
            (by rw [hml, hshift_len])
          refine ⟨out, ?_, hol, hob⟩
          simp only [remFold, hmid, ok_bind, hout]

theorem reedSolomonComputeRemainder_ok {data divisor : List Nat}
    (hdata : ∀ b ∈ data, b < 256) (hdiv : ∀ c ∈ divisor, c < 256) (hne : divisor ≠ []) :
    ∃ out, reedSolomonComputeRemainder data divisor = .ok out ∧
      out.length = divisor.length ∧ ∀ r ∈ out, r < 256 := by
  unfold reedSolomonComputeRemainder
  refine remFold_ok hdiv hne data hdata _ ?_ (by simp)
  intro r hr
  rcases List.mem_map.mp hr with ⟨a, _, h⟩
  omega

end ReedSolomon

namespace ReedSolomon

/-! ### Capacity resolver -/

theorem rawF_bounds : ∀ (ver : Int), 1 ≤ ver → ver ≤ 40 →
    208 ≤ numRawDataModulesF ver ∧ numRawDataModulesF ver ≤ 29648 := by
  intro ver h1 h2
  interval_cases ver <;> exact ⟨by decide, by decide⟩

theorem rawF_eq : ∀ (ver : Int), 1 ≤ ver → ver ≤ 40 →
    getNumRawDataModules ver = .ok (numRawDataModulesF ver) := by
  intro ver h1 h2
  interval_cases ver <;> rfl

theorem numDataCodewords_ok (ver numBlocks blockEccLen : Int) (h1 : 1 ≤ ver) (h2 : ver ≤ 40) :
    getNumDataCodewords ver numBlocks blockEccLen =
      .ok (numRawDataModulesF ver / 8 - blockEccLen * numBlocks) := by
  unfold getNumDataCodewords
  rw [rawF_eq ver h1 h2, ok_map]

end ReedSolomon

namespace ReedSolomon

/-! ### Block building -/

theorem neededData_eq (numShortBlocks baseLen : Int) (hbl : 0 ≤ baseLen) :
    ∀ (n : Nat) (i : Int), neededData numShortBlocks baseLen n i =
      n * baseLen.toNat + (n - (numShortBlocks - i).toNat) := by
  intro n
  induction n with
  | zero => intro i; simp [neededData]
  | succ n ih =>
      intro i
      rw [neededData, ih (i + 1)]
      by_cases h : i < numShortBlocks
      · rw [if_pos h, Nat.succ_mul]
        have hM : (n + 1) - (numShortBlocks - i).toNat =
            n - (numShortBlocks - (i + 1)).toNat := by omega
        rw [hM]
        have hA : (baseLen + 0).toNat = baseLen.toNat := by omega
        rw [hA]
        omega
      · rw [if_neg h, Nat.succ_mul]
        have hA : (baseLen + 1).toNat = baseLen.toNat + 1 := by omega
        have hB : (numShortBlocks - i).toNat = 0 := by omega
        have hC : (numShortBlocks - (i + 1)).toNat = 0 := by omega
        rw [hA, hB, hC]
        omega

theorem buildBlocks_ok {rsDiv : List Nat} (hdiv : ∀ c ∈ rsDiv, c < 256) (hne : rsDiv ≠ [])
    {numShortBlocks baseLen : Int} (hbl : 0 ≤ baseLen) :
    ∀ (n : Nat) (i : Int) (rest : List Nat), (∀ b ∈ rest, b < 256) →
      rest.length = neededData numShortBlocks baseLen n i →
      ∃ bs, buildBlocks rsDiv numShortBlocks baseLen n i rest = .ok bs ∧
        bs.length = n ∧ ∀ blk ∈ bs, blk.length = baseLen.toNat + 1 + rsDiv.length := by
  intro n
  induction n with
  | zero => exact fun i rest _ _ => ⟨[], rfl, rfl, by simp⟩
  | succ n ih =>
      intro i rest hrest hlen
      rw [neededData] at hlen
      set s := (baseLen + if i < numShortBlocks then 0 else 1).toNat with hs
      have hsle : s ≤ rest.length := by omega
      have hdat_len : (rest.take s).length = s := by
        rw [List.length_take]
        omega
      have hdat_bytes : ∀ b ∈ rest.take s, b < 256 :=
        fun b hb => hrest b (List.take_subset s rest hb)
      obtain ⟨ecc, hecc, helen, _⟩ := reedSolomonComputeRemainder_ok hdat_bytes hdiv hne
      have hdrop_len : (rest.drop (rest.take s).length).length =
          neededData numShortBlocks baseLen n (i + 1) := by
        rw [List.length_drop, hdat_len]
        omega
      have hdrop_bytes : ∀ b ∈ rest.drop (rest.take s).length, b < 256 :=
        fun b hb => hrest b (List.drop_subset _ rest hb)
      obtain ⟨bs, hbs, hbsl, hbsb⟩ := ih (i + 1) _ hdrop_bytes hdrop_len
      refine ⟨((if i < numShortBlocks then rest.take s ++ [0] else rest.take s) ++ ecc) :: bs,
        ?_, by simp [hbsl], ?_⟩
      · simp only [buildBlocks, ← hs, hecc, ok_bind, hbs, pure_eq_ok]
      · intro blk hblk
        rcases List.mem_cons.mp hblk with h | h
        · subst h
          rw [List.length_append, helen]
          by_cases hshort : i < numShortBlocks
          · rw [if_pos hshort, List.length_append, hdat_len, List.length_singleton]
            have : s = baseLen.toNat := by simp only [hs, if_pos hshort]; omega
            omega
          · rw [if_neg hshort, hdat_len]
            have : s = baseLen.toNat + 1 := by simp only [hs, if_neg hshort]; omega
            omega
        · exact hbsb blk h

/-! ### Interleaving -/

theorem interleaveRow_length_ne {padPos : Int} (numShortBlocks : Int) {i : Nat}
    (hne : (i : Int) ≠ padPos) :
    ∀ (bs : List (List Nat)) (j : Int),
      (interleaveRow padPos numShortBlocks i j bs).length = bs.length := by
  intro bs
  induction bs with
  | nil => intro j; rfl
  | cons blk rest ih =>
      intro j
      rw [interleaveRow, if_pos (Or.inl hne)]
      simp [ih (j + 1)]

theorem interleaveRow_length_eq {padPos numShortBlocks : Int} {i : Nat}
    (heq : (i : Int) = padPos) :
    ∀ (bs : List (List Nat)) (j : Int),
      (interleaveRow padPos numShortBlocks i j bs).length =
        bs.length - (numShortBlocks - j).toNat := by
  intro bs
  induction bs with
  | nil => intro j; simp [interleaveRow]
  | cons blk rest ih =>
      intro j
      by_cases hj : numShortBlocks ≤ j
      · rw [interleaveRow, if_pos (Or.inr hj)]
        simp only [List.length_cons, ih (j + 1)]
        omega
      · rw [interleaveRow, if_neg (by push_neg; exact ⟨heq, by omega⟩)]
        rw [ih (j + 1)]
        simp only [List.length_cons]
        omega

theorem sum_range_map_ite (a b : Nat) : ∀ (L p : Nat), p < L →
    (((List.range L).map (fun i => if i = p then a else b)).sum) = (L - 1) * b + a := by
  intro L
  induction L with
  | zero => intro p hp; omega
  | succ L ih =>
      intro p hp
      rw [List.range_succ, List.map_append, List.sum_append]
      by_cases h : p = L
      · subst h
        have hconst : (List.range p).map (fun i => if i = p then a else b) =
            (List.range p).map (fun _ => b) := by
          apply List.map_congr_left
          intro x hx
          rw [if_neg (by simp at hx; omega)]
        rw [hconst]
        have hsum : ∀ (m : Nat), ((List.range m).map (fun _ => b)).sum = m * b := by
          intro m
          induction m with
          | zero => simp
          | succ m ihm =>
              rw [List.range_succ, List.map_append, List.sum_append, ihm]
              simp [Nat.succ_mul]
        rw [hsum]
        simp [Nat.add_sub_cancel]
      · have hp2 : p < L := by omega
        rw [ih p hp2]
        simp only [List.map_cons, List.map_nil, List.sum_cons, List.sum_nil,
          if_neg (fun hh : L = p => h hh.symm)]
        have hmul : (L - 1) * b + b = L * b := by
          have h1 : L - 1 + 1 = L := by omega
          calc (L - 1) * b + b = (L - 1 + 1) * b := (Nat.succ_mul _ _).symm
            _ = L * b := by rw [h1]
        rw [Nat.succ_sub_one]
        omega

theorem interleaveAll_length {padPos numShortBlocks : Int} {blocks : List (List Nat)} {L : Nat}
    (hL : ∀ blk ∈ blocks, blk.length = L) (hne : blocks ≠ [])
    (hp0 : 0 ≤ padPos) (hpL : padPos.toNat < L) (hnsb0 : 0 ≤ numShortBlocks)
    (hnsbN : numShortBlocks.toNat ≤ blocks.length) :
    (interleaveAll padPos numShortBlocks blocks).length =
      (L - 1) * blocks.length + (blocks.length - numShortBlocks.toNat) := by
  have hhead : (blocks.headD []).length = L := by
    cases blocks with
    | nil => exact absurd rfl hne
    | cons blk rest => exact hL blk (by simp)
  unfold interleaveAll
  rw [hhead, List.length_flatMap]
  have hrow : ∀ i ∈ List.range L,
      (interleaveRow padPos numShortBlocks i 0 blocks).length =
        if i = padPos.toNat then blocks.length - numShortBlocks.toNat else blocks.length := by
    intro i _
    by_cases hip : i = padPos.toNat
    · rw [if_pos hip, interleaveRow_length_eq (by omega) blocks 0]
      congr 1
      omega
    · rw [if_neg hip, interleaveRow_length_ne numShortBlocks (by omega) blocks 0]
  calc ((List.range L).map fun i => (interleaveRow padPos numShortBlocks i 0 blocks).length).sum
      = ((List.range L).map fun i =>
          if i = padPos.toNat then blocks.length - numShortBlocks.toNat else blocks.length).sum := by
        rw [List.map_congr_left hrow]
    _ = (L - 1) * blocks.length + (blocks.length - numShortBlocks.toNat) :=
        sum_range_map_ite _ _ L padPos.toNat hpL

end ReedSolomon

namespace ReedSolomon

/-! ### The full pipeline -/

theorem addEcc_ok {ver nb e : Int} (h1 : 1 ≤ ver) (h2 : ver ≤ 40) (h3 : 1 ≤ nb)
    (h4 : 1 ≤ e) (h5 : e ≤ 255) (h6 : e ≤ numRawDataModulesF ver / 8 / nb)
    {data : List Nat} (hb : ∀ b ∈ data, b < 256)
    (hl : (data.length : Int) = numRawDataModulesF ver / 8 - e * nb) :
    ∃ rsDiv bs, reedSolomonComputeDivisor e = .ok rsDiv ∧
      buildBlocks rsDiv (nb - numRawDataModulesF ver / 8 % nb)
        (numRawDataModulesF ver / 8 / nb - e) nb.toNat 0 data = .ok bs ∧
      bs.length = nb.toNat ∧
      (∀ blk ∈ bs, blk.length = (numRawDataModulesF ver / 8 / nb - e).toNat + 1 + e.toNat) ∧
      addEccAndInterleave data ver nb e =
        .ok (interleaveAll (numRawDataModulesF ver / 8 / nb - e)
          (nb - numRawDataModulesF ver / 8 % nb) bs) ∧
      ((interleaveAll (numRawDataModulesF ver / 8 / nb - e)
          (nb - numRawDataModulesF ver / 8 % nb) bs).length : Int) =
        numRawDataModulesF ver / 8 := by
  have hF := rawF_bounds ver h1 h2
  have hR : 26 ≤ numRawDataModulesF ver / 8 := by omega
  have hnb0 : nb ≠ 0 := by omega
  have hmod1 : 0 ≤ numRawDataModulesF ver / 8 % nb := Int.emod_nonneg _ hnb0
  have hmod2 : numRawDataModulesF ver / 8 % nb < nb := Int.emod_lt_of_pos _ (by omega)
  have hdiv_id : nb * (numRawDataModulesF ver / 8 / nb) + numRawDataModulesF ver / 8 % nb =
      numRawDataModulesF ver / 8 := Int.ediv_add_emod _ nb
  have hbl0 : 0 ≤ numRawDataModulesF ver / 8 / nb - e := by omega
  obtain ⟨rsDiv, hrsDiv, hrsLen, hrsBytes⟩ := computeDivisor_ok h4 h5
  have hrsne : rsDiv ≠ [] := by
    intro hnil
    rw [hnil] at hrsLen
    simp at hrsLen
    omega
  have hneed : data.length = neededData (nb - numRawDataModulesF ver / 8 % nb)
      (numRawDataModulesF ver / 8 / nb - e) nb.toNat 0 := by
    have hclosed := neededData_eq (nb - numRawDataModulesF ver / 8 % nb)
      (numRawDataModulesF ver / 8 / nb - e) hbl0 nb.toNat (0 : Int)
    have e1 : ((nb.toNat : Int)) = nb := Int.toNat_of_nonneg (by omega)
    have e2 : (((numRawDataModulesF ver / 8 / nb - e).toNat : Int)) =
        numRawDataModulesF ver / 8 / nb - e := Int.toNat_of_nonneg hbl0
    have e3 : (((nb - numRawDataModulesF ver / 8 % nb - 0).toNat : Int)) =
        nb - numRawDataModulesF ver / 8 % nb := by
      rw [Int.toNat_of_nonneg (by omega)]
      omega
    have e4 : (nb - numRawDataModulesF ver / 8 % nb - 0).toNat ≤ nb.toNat := by omega
    have hcast : ((neededData (nb - numRawDataModulesF ver / 8 % nb)
        (numRawDataModulesF ver / 8 / nb - e) nb.toNat 0 : Nat) : Int) =
        numRawDataModulesF ver / 8 - e * nb := by
      rw [hclosed]
      push_cast [Nat.cast_sub e4]
      rw [e1, e2, e3]
      linear_combination hdiv_id
    have := hl.trans hcast.symm
    exact_mod_cast this
  obtain ⟨bs, hbs, hbsl, hbsL⟩ := buildBlocks_ok hrsBytes hrsne hbl0 nb.toNat 0 data hb hneed
  have heN : rsDiv.length = e.toNat := by omega
  have hbsL2 : ∀ blk ∈ bs, blk.length =
      (numRawDataModulesF ver / 8 / nb - e).toNat + 1 + e.toNat := by
    intro blk hblk
    rw [hbsL blk hblk, heN]
  have hbsne : bs ≠ [] := by
    intro hnil
    rw [hnil] at hbsl
    simp at hbsl
    omega
  have hilen : ((interleaveAll (numRawDataModulesF ver / 8 / nb - e)
      (nb - numRawDataModulesF ver / 8 % nb) bs).length : Int) =
      numRawDataModulesF ver / 8 := by
    have hlen := interleaveAll_length hbsL2 hbsne hbl0 (by omega)
      (by omega : (0:Int) ≤ nb - numRawDataModulesF ver / 8 % nb) (by omega)
    rw [hlen, hbsl]
    have e1 : ((nb.toNat : Int)) = nb := Int.toNat_of_nonneg (by omega)
    have e2 : (((numRawDataModulesF ver / 8 / nb - e).toNat : Int)) =
        numRawDataModulesF ver / 8 / nb - e := Int.toNat_of_nonneg hbl0
    have e3 : (((nb - numRawDataModulesF ver / 8 % nb).toNat : Int)) =
        nb - numRawDataModulesF ver / 8 % nb := Int.toNat_of_nonneg (by omega)
    have e4 : (nb - numRawDataModulesF ver / 8 % nb).toNat ≤ nb.toNat := by omega
    have e5 : (numRawDataModulesF ver / 8 / nb - e).toNat + 1 + e.toNat - 1 =
        (numRawDataModulesF ver / 8 / nb - e).toNat + e.toNat := by omega
    rw [e5]
    push_cast [Nat.cast_sub e4]
    rw [e1, e2, e3]
    have e6 : ((e.toNat : Int)) = e := Int.toNat_of_nonneg (by omega)
    rw [e6]
    linear_combination hdiv_id
  refine ⟨rsDiv, bs, hrsDiv, hbs, hbsl, hbsL2, ?_, hilen⟩
  unfold addEccAndInterleave
  rw [numDataCodewords_ok ver nb e h1 h2, ok_bind, if_neg (not_ne_iff.mpr hl),
    rawF_eq ver h1 h2, ok_bind]
  simp only [hrsDiv, ok_bind, hbs]
  rw [if_neg (not_ne_iff.mpr hilen)]

end ReedSolomon

namespace ReedSolomon

/-! ### Claim theorems -/

/-- C4: for every degree d in [1,255], `reedSolomonComputeDivisor d` returns a
coefficient sequence of length exactly d (the implicit leading 1 not stored),
and for every d outside [1,255] it fails with the range error. -/
theorem computeDivisor_degree (d : Int) :
    (1 ≤ d → d ≤ 255 → ∃ res, reedSolomonComputeDivisor d = .ok res ∧ (res.length : Int) = d) ∧
      (d < 1 ∨ d > 255 → reedSolomonComputeDivisor d = .error "Degree out of range") := by
  constructor
  · intro hd1 hd2
    obtain ⟨res, h, hl, _⟩ := computeDivisor_ok hd1 hd2
    exact ⟨res, h, hl⟩
  · intro h
    unfold reedSolomonComputeDivisor
    rw [if_pos h]

theorem computeDivisor_degree_w :
    (∃ res, reedSolomonComputeDivisor 7 = .ok res ∧ (res.length : Int) = 7) ∧
      reedSolomonComputeDivisor 300 = .error "Degree out of range" :=
  ⟨(computeDivisor_degree 7).1 (by decide) (by decide),
   (computeDivisor_degree 300).2 (by decide)⟩

/-- C5 counterexample: as stated over every divisor sequence the length claim
fails on the code.  With the empty divisor and one data byte, the JS loop
still shifts (`undefined`, coerced to 0) and pushes, so the result has length
1 ≠ 0; and a divisor coefficient above 255 makes `reedSolomonMultiply` throw
instead of returning. -/
theorem computeRemainder_length_cex :
    reedSolomonComputeRemainder [0] [] = .ok [0] ∧
      ([0] : List Nat).length ≠ ([] : List Nat).length ∧
      reedSolomonComputeRemainder [0] [300] = .error "Byte out of range" :=
  ⟨rfl, by decide, rfl⟩

/-- C5 (amended): for every data sequence of bytes and every nonempty divisor
sequence of bytes, `reedSolomonComputeRemainder` returns without error a
sequence whose length equals `divisor.length`. -/
theorem computeRemainder_length (data divisor : List Nat)
    (hdata : ∀ b ∈ data, b < 256) (hdiv : ∀ c ∈ divisor, c < 256) (hne : divisor ≠ []) :
    ∃ out, reedSolomonComputeRemainder data divisor = .ok out ∧
      out.length = divisor.length := by
  obtain ⟨out, h, hl, _⟩ := reedSolomonComputeRemainder_ok hdata hdiv hne
  exact ⟨out, h, hl⟩

theorem computeRemainder_length_w :
    ∃ out, reedSolomonComputeRemainder [1, 2, 3] [4, 5] = .ok out ∧
      out.length = ([4, 5] : List Nat).length :=
  computeRemainder_length [1, 2, 3] [4, 5] (by decide) (by decide) (by decide)

/-- C6: on byte inputs `reedSolomonMultiply` obeys the field laws: x·1 = x,
x·0 = 0, and it is commutative although the Russian-peasant loop treats its
arguments asymmetrically. -/
theorem multiply_field_laws (x y : Nat) (hx : x < 256) (hy : y < 256) :
    reedSolomonMultiply x 1 = .ok x ∧ reedSolomonMultiply x 0 = .ok 0 ∧
      reedSolomonMultiply x y = reedSolomonMultiply y x := by
  refine ⟨?_, ?_, ?_⟩
  · rw [reedSolomonMultiply_ok hx (by omega), rsMultCore_one_right x hx]
  · rw [reedSolomonMultiply_ok hx (by omega), rsMultCore_zero_right]
  · rw [reedSolomonMultiply_ok hx hy, reedSolomonMultiply_ok hy hx,
      rsMultCore_comm x hx y hy]

theorem multiply_field_laws_w :
    reedSolomonMultiply 3 1 = .ok 3 ∧ reedSolomonMultiply 3 0 = .ok 0 ∧
      reedSolomonMultiply 3 7 = reedSolomonMultiply 7 3 :=
  multiply_field_laws 3 7 (by decide) (by decide)

/-- C7: on byte inputs the accumulator of `reedSolomonMultiply` stays below
256, so the function returns it and the internal assertion-error branch is
unreachable. -/
theorem multiply_byte_safe (x y : Nat) (hx : x < 256) (hy : y < 256) :
    reedSolomonMultiply x y = .ok (rsMultCore x y) ∧ rsMultCore x y ≤ 255 :=
  ⟨reedSolomonMultiply_ok hx hy, by have := rsMultCore_lt y hx; omega⟩

theorem multiply_byte_safe_w :
    reedSolomonMultiply 7 9 = .ok (rsMultCore 7 9) ∧ rsMultCore 7 9 ≤ 255 :=
  multiply_byte_safe 7 9 (by decide) (by decide)

/-- C8: for every version in [1,40], `getNumRawDataModules` returns the
closed-form value of the specification, which always lies in [208, 29648],
so the internal assertion-failure branch is unreachable in range. -/
theorem getNumRawDataModules_closed_form (ver : Int) (h1 : 1 ≤ ver) (h2 : ver ≤ 40) :
    getNumRawDataModules ver = .ok (numRawDataModulesF ver) ∧
      208 ≤ numRawDataModulesF ver ∧ numRawDataModulesF ver ≤ 29648 :=
  ⟨rawF_eq ver h1 h2, (rawF_bounds ver h1 h2).1, (rawF_bounds ver h1 h2).2⟩

theorem getNumRawDataModules_closed_form_w :
    getNumRawDataModules 17 = .ok (numRawDataModulesF 17) ∧
      208 ≤ numRawDataModulesF 17 ∧ numRawDataModulesF 17 ≤ 29648 :=
  getNumRawDataModules_closed_form 17 (by decide) (by decide)

end ReedSolomon

namespace ReedSolomon

theorem bind_map_eq {α β γ : Type} (x : Except String α) (y : Except String β)
    (f : α → β → γ) :
    (x >>= fun a => y >>= fun b => pure (f a b)) = x.bind (fun a => y.map (f a)) := by
  cases x <;> cases y <;> rfl

/-- C9: every block built by the loop of `addEccAndInterleave` is a function
of its own data slice and the single divisor alone: the loop equals a
blockwise `mapM` over the slices, so the divisor is unaffected by earlier
blocks and each block's ECC does not depend on how many blocks were
processed before it. -/
theorem buildBlocks_blockwise (rsDiv : List Nat) (numShortBlocks baseLen : Int) :
    ∀ (n : Nat) (i : Int) (rest : List Nat),
      buildBlocks rsDiv numShortBlocks baseLen n i rest =
        (theSlices numShortBlocks baseLen n i rest).mapM (mkBlock rsDiv) := by
  intro n
  induction n with
  | zero => intro i rest; rfl
  | succ n ih =>
      intro i rest
      simp only [buildBlocks, theSlices, List.mapM_cons, mkBlock, ← ih]
      cases reedSolomonComputeRemainder
          (rest.take (baseLen + if i < numShortBlocks then 0 else 1).toNat) rsDiv with
      | error msg => rfl
      | ok ecc =>
          cases buildBlocks rsDiv numShortBlocks baseLen n (i + 1)
              (rest.drop (rest.take
                (baseLen + if i < numShortBlocks then 0 else 1).toNat).length) with
          | error msg => rfl
          | ok bs => by_cases h : i < numShortBlocks <;> simp [h, ok_bind]

/-- C10: with `numBlocks ≥ 1` and a version in range, `numShortBlocks`
always lies in `[1, numBlocks]` — in particular it equals `numBlocks` when
`numBlocks` divides the raw codeword count — so block 0 is always short: the
block loop appends the zero pad byte to it, and the interleaving loop skips
the pad-position byte of every short block. -/
theorem numShortBlocks_invariant (ver nb : Int) (h1 : 1 ≤ ver) (h2 : ver ≤ 40)
    (h3 : 1 ≤ nb) :
    1 ≤ nb - numRawDataModulesF ver / 8 % nb ∧
    nb - numRawDataModulesF ver / 8 % nb ≤ nb ∧
    (numRawDataModulesF ver / 8 % nb = 0 → nb - numRawDataModulesF ver / 8 % nb = nb) ∧
    (∀ (rsDiv rest : List Nat) (baseLen : Int) (n : Nat),
      buildBlocks rsDiv (nb - numRawDataModulesF ver / 8 % nb) baseLen (n + 1) 0 rest =
        (reedSolomonComputeRemainder (rest.take (baseLen + 0).toNat) rsDiv).bind
          (fun ecc =>
            (buildBlocks rsDiv (nb - numRawDataModulesF ver / 8 % nb) baseLen n 1
              (rest.drop (rest.take (baseLen + 0).toNat).length)).map
              (fun bs => ((rest.take (baseLen + 0).toNat ++ [0]) ++ ecc) :: bs))) ∧
    (∀ (padPos : Int) (i : Nat) (blk : List Nat) (bs : List (List Nat)),
      (i : Int) = padPos →
      interleaveRow padPos (nb - numRawDataModulesF ver / 8 % nb) i 0 (blk :: bs) =
        interleaveRow padPos (nb - numRawDataModulesF ver / 8 % nb) i 1 bs) := by
  have hF := rawF_bounds ver h1 h2
  have hnb0 : nb ≠ 0 := by omega
  have hmod1 : 0 ≤ numRawDataModulesF ver / 8 % nb := Int.emod_nonneg _ hnb0
  have hmod2 : numRawDataModulesF ver / 8 % nb < nb := Int.emod_lt_of_pos _ (by omega)
  have h0nsb : (0 : Int) < nb - numRawDataModulesF ver / 8 % nb := by omega
  refine ⟨by omega, by omega, by omega, ?_, ?_⟩
  · intro rsDiv rest baseLen n
    simp only [buildBlocks, h0nsb, if_true]
    exact bind_map_eq _ _ _
  · intro padPos i blk bs heq
    rw [interleaveRow, if_neg (by push_neg; exact ⟨heq, by omega⟩)]
    norm_num

theorem numShortBlocks_invariant_w :
    1 ≤ (1 : Int) - numRawDataModulesF 1 / 8 % 1 ∧
    (1 : Int) - numRawDataModulesF 1 / 8 % 1 ≤ 1 ∧
    (numRawDataModulesF 1 / 8 % 1 = 0 → (1 : Int) - numRawDataModulesF 1 / 8 % 1 = 1) ∧
    (∀ (rsDiv rest : List Nat) (baseLen : Int) (n : Nat),
      buildBlocks rsDiv (1 - numRawDataModulesF 1 / 8 % 1) baseLen (n + 1) 0 rest =
        (reedSolomonComputeRemainder (rest.take (baseLen + 0).toNat) rsDiv).bind
          (fun ecc =>
            (buildBlocks rsDiv (1 - numRawDataModulesF 1 / 8 % 1) baseLen n 1
              (rest.drop (rest.take (baseLen + 0).toNat).length)).map
              (fun bs => ((rest.take (baseLen + 0).toNat ++ [0]) ++ ecc) :: bs))) ∧
    (∀ (padPos : Int) (i : Nat) (blk : List Nat) (bs : List (List Nat)),
      (i : Int) = padPos →
      interleaveRow padPos (1 - numRawDataModulesF 1 / 8 % 1) i 0 (blk :: bs) =
        interleaveRow padPos (1 - numRawDataModulesF 1 / 8 % 1) i 1 bs) :=
  numShortBlocks_invariant 1 1 (by decide) (by decide) (by decide)

end ReedSolomon

namespace ReedSolomon

theorem sum_map_length_const {α : Type} :
    ∀ (bs : List (List α)) (L : Nat), (∀ blk ∈ bs, blk.length = L) →
      (bs.map List.length).sum = bs.length * L := by
  intro bs
  induction bs with
  | nil => intro L _; simp
  | cons blk rest ih =>
      intro L h
      simp only [List.map_cons, List.sum_cons, List.length_cons]
      rw [h blk (by simp), ih L (fun b hb => h b (by simp [hb])), Nat.succ_mul]
      omega

/-- C1: for every version in [1,40] and every capacity-table assignment with
`numBlocks ≥ 1`, `1 ≤ blockEccLen ≤ 255` and
`blockEccLen ≤ rawCodewords / numBlocks`, `addEccAndInterleave` applied to a
byte sequence of length exactly `numDataCodewords` returns a sequence of
length exactly `rawCodewords = numRawDataModules(version) / 8`, and the final
internal length assertion never fires. -/
theorem addEccAndInterleave_length (ver nb e : Int) (data : List Nat)
    (h1 : 1 ≤ ver) (h2 : ver ≤ 40) (h3 : 1 ≤ nb) (h4 : 1 ≤ e) (h5 : e ≤ 255)
    (h6 : e ≤ numRawDataModulesF ver / 8 / nb) (hb : ∀ b ∈ data, b < 256)
    (hl : (data.length : Int) = numRawDataModulesF ver / 8 - e * nb) :
    ∃ out, addEccAndInterleave data ver nb e = .ok out ∧
      (out.length : Int) = numRawDataModulesF ver / 8 := by
  obtain ⟨rsDiv, bs, _, _, _, _, hok, hlen⟩ := addEcc_ok h1 h2 h3 h4 h5 h6 hb hl
  exact ⟨_, hok, hlen⟩

theorem addEccAndInterleave_length_w :
    ∃ out, addEccAndInterleave (List.replicate 19 0) 1 1 7 = .ok out ∧
      (out.length : Int) = numRawDataModulesF 1 / 8 :=
  addEccAndInterleave_length 1 1 7 (List.replicate 19 0) (by decide) (by decide)
    (by decide) (by decide) (by decide) (by decide)
    (by intro b hb; have := List.eq_of_mem_replicate hb; omega) (by decide)

/-- C2 counterexample: at version 1 with the standard level-L table entry
(one block, 7 ECC codewords) and a valid 19-byte input, the sum of the
constructed blocks' lengths — pad byte included — is 27, while the raw
codeword count is `208 / 8 = 26`, so the sum does not equal `rawCodewords`. -/
theorem blockLengthSum_cex :
    ((reedSolomonComputeDivisor 7).bind
        (fun d => buildBlocks d 1 19 1 0 (List.replicate 19 0))).map
      (fun bs => (bs.map List.length).sum) = .ok 27 ∧
    getNumRawDataModules 1 = .ok 208 ∧ ¬((27 : Int) = 208 / 8) :=
  ⟨rfl, rfl, by decide⟩

/-- C2 (amended): under the preconditions of C1 the sum of the constructed
blocks' lengths (data bytes, the one zero pad byte of each short block, and
ECC bytes) equals `rawCodewords + numShortBlocks`; the pad bytes are extra
and are skipped again during interleaving, so the interleaved output — not
the padded block sum — has length `rawCodewords`. -/
theorem blockLengthSum (ver nb e : Int) (data : List Nat)
    (h1 : 1 ≤ ver) (h2 : ver ≤ 40) (h3 : 1 ≤ nb) (h4 : 1 ≤ e) (h5 : e ≤ 255)
    (h6 : e ≤ numRawDataModulesF ver / 8 / nb) (hb : ∀ b ∈ data, b < 256)
    (hl : (data.length : Int) = numRawDataModulesF ver / 8 - e * nb) :
    ∃ rsDiv bs, reedSolomonComputeDivisor e = .ok rsDiv ∧
      buildBlocks rsDiv (nb - numRawDataModulesF ver / 8 % nb)
        (numRawDataModulesF ver / 8 / nb - e) nb.toNat 0 data = .ok bs ∧
      ((bs.map List.length).sum : Int) =
        numRawDataModulesF ver / 8 + (nb - numRawDataModulesF ver / 8 % nb) := by
  obtain ⟨rsDiv, bs, hdiv, hbs, hbsl, hbsL, _, _⟩ := addEcc_ok h1 h2 h3 h4 h5 h6 hb hl
  refine ⟨rsDiv, bs, hdiv, hbs, ?_⟩
  have hF := rawF_bounds ver h1 h2
  have hnb0 : nb ≠ 0 := by omega
  have hmod1 : 0 ≤ numRawDataModulesF ver / 8 % nb := Int.emod_nonneg _ hnb0
  have hmod2 : numRawDataModulesF ver / 8 % nb < nb := Int.emod_lt_of_pos _ (by omega)
  have hdiv_id : nb * (numRawDataModulesF ver / 8 / nb) + numRawDataModulesF ver / 8 % nb =
      numRawDataModulesF ver / 8 := Int.ediv_add_emod _ nb
  have hbl0 : 0 ≤ numRawDataModulesF ver / 8 / nb - e := by omega
  rw [sum_map_length_const bs _ hbsL, hbsl]
  have e1 : ((nb.toNat : Int)) = nb := Int.toNat_of_nonneg (by omega)
  have e2 : (((numRawDataModulesF ver / 8 / nb - e).toNat : Int)) =
      numRawDataModulesF ver / 8 / nb - e := Int.toNat_of_nonneg hbl0
  have e6 : ((e.toNat : Int)) = e := Int.toNat_of_nonneg (by omega)
  push_cast
  rw [e1, e2, e6]
  linear_combination hdiv_id

theorem blockLengthSum_w :
    ∃ rsDiv bs, reedSolomonComputeDivisor 7 = .ok rsDiv ∧
      buildBlocks rsDiv (1 - numRawDataModulesF 1 / 8 % 1)
        (numRawDataModulesF 1 / 8 / 1 - 7) (1 : Int).toNat 0 (List.replicate 19 0) = .ok bs ∧
      ((bs.map List.length).sum : Int) =
        numRawDataModulesF 1 / 8 + (1 - numRawDataModulesF 1 / 8 % 1) :=
  blockLengthSum 1 1 7 (List.replicate 19 0) (by decide) (by decide) (by decide)
    (by decide) (by decide) (by decide)
    (by intro b hb; have := List.eq_of_mem_replicate hb; omega) (by decide)

/-- C3: with a version in [1,40] and well-formed table entries, the
invalid-argument check is performed first: any data of the wrong length
fails with exactly the invalid-argument error before any block splitting or
ECC computation, and byte data of the right length never produces that
error (the call succeeds). -/
theorem addEccAndInterleave_invalid_arg (ver nb e : Int) (data : List Nat)
    (h1 : 1 ≤ ver) (h2 : ver ≤ 40) (h3 : 1 ≤ nb) (h4 : 1 ≤ e) (h5 : e ≤ 255)
    (h6 : e ≤ numRawDataModulesF ver / 8 / nb) :
    ((data.length : Int) ≠ numRawDataModulesF ver / 8 - e * nb →
      addEccAndInterleave data ver nb e = .error "Invalid argument") ∧
    ((∀ b ∈ data, b < 256) →
      (data.length : Int) = numRawDataModulesF ver / 8 - e * nb →
      ∃ out, addEccAndInterleave data ver nb e = .ok out) := by
  constructor
  · intro hne
    unfold addEccAndInterleave
    rw [numDataCodewords_ok ver nb e h1 h2, ok_bind, if_pos hne]
  · intro hb hl
    obtain ⟨_, _, _, _, _, _, hok, _⟩ := addEcc_ok h1 h2 h3 h4 h5 h6 hb hl
    exact ⟨_, hok⟩

theorem addEccAndInterleave_invalid_arg_w :
    addEccAndInterleave [] 1 1 7 = .error "Invalid argument" ∧
      ∃ out, addEccAndInterleave (List.replicate 19 0) 1 1 7 = .ok out :=
  ⟨(addEccAndInterleave_invalid_arg 1 1 7 [] (by decide) (by decide) (by decide)
      (by decide) (by decide) (by decide)).1 (by decide),
   (addEccAndInterleave_invalid_arg 1 1 7 (List.replicate 19 0) (by decide) (by decide)
      (by decide) (by decide) (by decide) (by decide)).2
      (by intro b hb; have := List.eq_of_mem_replicate hb; omega) (by decide)⟩

end ReedSolomon
